import Mathlib

/-!
A shallow embedding, in Lean 4, of the PNG chunk-container core of the
`hushpong` repository (files `src/chunk_type.rs`, `src/chunk.rs`,
`src/crc32.rs`, `src/errors.rs`, `src/png.rs`), together with proofs of
the testable properties stated for it.

Conventions of the embedding:
* A Rust `u8` byte is a `Nat`; a byte buffer (`&[u8]` / `Vec<u8>`) is a
  `List Nat`.  Where a statement depends on values actually being bytes,
  the hypothesis `∀ b ∈ buf, b < 256` appears explicitly.
* `u32` arithmetic is `Nat` arithmetic with an explicit `% 2 ^ 32` at the
  one place the code truncates (`data.len() as u32`).
* Fallible Rust functions returning `Result` become `Except PngError _`.
* Rust code that can panic (out-of-range slice indexing in
  `Png::try_from`) is modelled by a dedicated `panic` outcome, distinct
  from every `Err` value.
-/

set_option maxRecDepth 40000

/-- Models `u8::is_ascii_uppercase`: the byte is in `b'A'..=b'Z'`. -/
def isAsciiUppercase (b : Nat) : Bool :=
  65 ≤ b && b ≤ 90

/-- Models `u8::is_ascii_lowercase`: the byte is in `b'a'..=b'z'`. -/
def isAsciiLowercase (b : Nat) : Bool :=
  97 ≤ b && b ≤ 122

/-- Models `u8::is_ascii_alphabetic`. -/
def isAsciiAlphabetic (b : Nat) : Bool :=
  isAsciiUppercase b || isAsciiLowercase b

/-- The reflected CRC-32 polynomial, `POLY` in `src/crc32.rs`. -/
def POLY : Nat := 0xEDB88320

/-- One round of the inner loop of `init_crc` in `src/crc32.rs`:
`if c & 1 == 1 { c = POLY ^ (c >> 1) } else { c >>= 1 }`. -/
def crcStep (c : Nat) : Nat :=
  if c &&& 1 = 1 then POLY ^^^ (c >>> 1) else c >>> 1

/-- Entry `byte` of the table built by `init_crc` in `src/crc32.rs`:
eight rounds of `crcStep` starting from the byte value. -/
def crcTableEntry (byte : Nat) : Nat :=
  crcStep^[8] byte

/-- Models `update_crc` in `src/crc32.rs`: table-driven CRC with initial
register `0xFFFFFFFF`.  Looking an index up in the table built by
`init_crc` is `crcTableEntry` applied to that index. -/
def updateCrc (buf : List Nat) : Nat :=
  buf.foldl (fun crc byte => crcTableEntry ((crc ^^^ byte) &&& 0xFF) ^^^ (crc >>> 8)) 0xFFFFFFFF

/-- The CRC-32 (ISO-HDLC) checksum: `update_crc` followed by the final
xor with `0xFFFFFFFF`, as in `calculate_crc` of `src/crc32.rs`.  This is
the same algorithm the chunk code invokes through
`crc::Crc::<u32>::new(&CRC_32_ISO_HDLC).checksum` (checked against the
repository's own test value `2591807180` below). -/
def crc32 (buf : List Nat) : Nat :=
  updateCrc buf ^^^ 0xFFFFFFFF

/-- Models `u32::to_be_bytes`: the four big-endian bytes of a 32-bit
value, most significant first (byte `i` is `(n >> (8*(3-i))) & 0xFF`,
written with `/` and `%` by powers of two). -/
def u32ToBe (n : Nat) : List Nat :=
  [n / 2 ^ 24 % 256, n / 2 ^ 16 % 256, n / 2 ^ 8 % 256, n % 256]

/-- Models `u32::from_be_bytes` on a 4-byte buffer: the big-endian value
of the four bytes.  (Only ever applied to buffers of exactly four
bytes; other shapes are mapped to `0`.) -/
def u32FromBe (bs : List Nat) : Nat :=
  match bs with
  | [b0, b1, b2, b3] => ((b0 * 256 + b1) * 256 + b2) * 256 + b3
  | _ => 0

/-- Models the `PngError` enum of `src/errors.rs`.  `invalidCrc` carries
the `Expectations { got, expected }` payload as two `Nat` fields, in
that order.  `chunkNotFound` models the `PngError::ChunkNotFound`
variant that `src/png.rs` returns from `remove_chunk`. -/
inductive PngError where
  | invalidByte
  | tryFromStrError
  | tryStringFromChunkData
  | readFromByteSlice
  | tryUsizeFromU32
  | invalidCrc (got expected : Nat)
  | invalidPngSignature
  | chunkNotFound
deriving DecidableEq

/-- Models `ChunkType` of `src/chunk_type.rs`: a wrapper around the four
type-code bytes (`[u8; 4]`, here a list that is 4 long for every value
the constructors produce). -/
structure ChunkType where
  bytes : List Nat
deriving DecidableEq

/-- Models `impl TryFrom<[u8; 4]> for ChunkType`: fails with
`InvalidByte` when any byte is not an ASCII letter. -/
def ChunkType.tryFrom (value : List Nat) : Except PngError ChunkType :=
  if value.any (fun byte => !isAsciiAlphabetic byte) then
    .error .invalidByte
  else
    .ok ⟨value⟩

/-- Models `ChunkType::is_critical`: byte 0 is uppercase. -/
def ChunkType.isCritical (ct : ChunkType) : Bool :=
  isAsciiUppercase (ct.bytes.getD 0 0)

/-- Models `ChunkType::is_public`: byte 1 is uppercase. -/
def ChunkType.isPublic (ct : ChunkType) : Bool :=
  isAsciiUppercase (ct.bytes.getD 1 0)

/-- Models `ChunkType::is_reserved_bit_valid`: byte 2 is uppercase. -/
def ChunkType.isReservedBitValid (ct : ChunkType) : Bool :=
  isAsciiUppercase (ct.bytes.getD 2 0)

/-- Models `ChunkType::is_safe_to_copy`: byte 3 is lowercase. -/
def ChunkType.isSafeToCopy (ct : ChunkType) : Bool :=
  isAsciiLowercase (ct.bytes.getD 3 0)

/-- Models `ChunkType::is_valid`: `false` when the reserved bit is not
valid, otherwise `!self.0.into_iter().any(|b| !b.is_ascii_alphabetic())`. -/
def ChunkType.isValid (ct : ChunkType) : Bool :=
  if !ct.isReservedBitValid then false
  else !ct.bytes.any (fun byte => !isAsciiAlphabetic byte)

/-- The UTF-8 encoding of a code point below `0x800`; `byte as char`
in the `Display` impl yields code points below `0x100`, so the two
branches here cover everything that impl can produce. -/
def charUtf8 (c : Nat) : List Nat :=
  if c < 128 then [c] else [192 + c / 64, 128 + c % 64]

/-- Models `impl Display for ChunkType` (`to_string`): each byte written
as the character with that code point, the result taken as its UTF-8
byte sequence (which is how Rust `String`s compare). -/
def ChunkType.toText (ct : ChunkType) : List Nat :=
  (ct.bytes.map charUtf8).flatten

/-- Well-formedness a Rust `ChunkType` value enjoys by construction:
exactly four bytes, all ASCII letters (both `TryFrom` and `FromStr`,
the only constructors, guarantee this). -/
def ChunkType.WF (ct : ChunkType) : Prop :=
  ct.bytes.length = 4 ∧ ∀ b ∈ ct.bytes, isAsciiAlphabetic b = true

/-- Models the `Chunk` struct of `src/chunk.rs`: length, type code,
data bytes, CRC. -/
structure Chunk where
  length : Nat
  chunkType : ChunkType
  chunkData : List Nat
  crc : Nat
deriving DecidableEq

/-- Models `Chunk::new`: computes the CRC over type-code bytes followed
by data, and the length as `data.len() as u32` (hence the explicit
truncation `% 2 ^ 32`). -/
def Chunk.new (chunkType : ChunkType) (data : List Nat) : Chunk :=
  { length := data.length % 2 ^ 32
    chunkType := chunkType
    chunkData := data
    crc := crc32 (chunkType.bytes ++ data) }

/-- Models `Chunk::as_bytes`: `length.to_be_bytes() ++ type code bytes
++ data ++ crc.to_be_bytes()`. -/
def Chunk.asBytes (c : Chunk) : List Nat :=
  u32ToBe c.length ++ c.chunkType.bytes ++ c.chunkData ++ u32ToBe c.crc

/-- Models `impl TryFrom<&[u8]> for Chunk`.  The Rust code reads through
a `BufReader` with `read_exact`, which consumes the requested bytes and
fails (`ReadFromByteSlice`, from the propagated `io::Error`) when fewer
remain; bytes after the CRC field are never read.  `usize::try_from` on
a `u32` cannot fail and so contributes no branch.  On success the Rust
code returns `Self::new(chunk_type, chunk_data)`, recomputing length
and CRC. -/
def Chunk.tryFrom (value : List Nat) : Except PngError Chunk :=
  if value.length < 4 then .error .readFromByteSlice else
  let chunkLength := u32FromBe (value.take 4)
  let r1 := value.drop 4
  if r1.length < 4 then .error .readFromByteSlice else
  match ChunkType.tryFrom (r1.take 4) with
  | .error e => .error e
  | .ok chunkType =>
    let r2 := r1.drop 4
    if r2.length < chunkLength then .error .readFromByteSlice else
    let chunkData := r2.take chunkLength
    let r3 := r2.drop chunkLength
    if r3.length < 4 then .error .readFromByteSlice else
    let receivedCrc := u32FromBe (r3.take 4)
    let actualCrc := crc32 (chunkType.bytes ++ chunkData)
    if receivedCrc = actualCrc then .ok (Chunk.new chunkType chunkData)
    else .error (.invalidCrc receivedCrc actualCrc)

/-- The two consistency conditions of a chunk record: the length field
counts exactly the data bytes, and the CRC field is the CRC-32 of the
type-code bytes followed by the data. -/
def Chunk.Valid (c : Chunk) : Prop :=
  c.length = c.chunkData.length ∧ c.crc = crc32 (c.chunkType.bytes ++ c.chunkData)

/-- Well-formedness a Rust `Chunk` value enjoys by construction: its
type code is a well-formed `ChunkType`, its `u32` fields are below
`2 ^ 32`, and its data bytes are `u8` values. -/
def Chunk.WF (c : Chunk) : Prop :=
  c.chunkType.WF ∧ c.length < 2 ^ 32 ∧ c.crc < 2 ^ 32 ∧ ∀ b ∈ c.chunkData, b < 256

/-- Models the `Png` struct of `src/png.rs`: an 8-byte signature and an
ordered chunk sequence. -/
structure Png where
  signature : List Nat
  chunks : List Chunk
deriving DecidableEq

/-- `Png::PNG_FILE_SIGNATURE`. -/
def PNG_FILE_SIGNATURE : List Nat := [137, 80, 78, 71, 13, 10, 26, 10]

/-- `Png::MIN_CHUNK_LENGTH`. -/
def MIN_CHUNK_LENGTH : Nat := 12

/-- Models `Png::from_chunks`. -/
def Png.fromChunks (chunks : List Chunk) : Png :=
  ⟨PNG_FILE_SIGNATURE, chunks⟩

/-- Outcome of `Png::try_from`, with a `panic` case: the Rust function
indexes `value[..8]` and `value[start..end]` with unchecked bounds, and
a Rust slice-index out of range is a panic, not an `Err`. -/
inductive PngParse where
  | ok (png : Png)
  | error (e : PngError)
  | panic
deriving DecidableEq

/-- The chunk loop of `impl TryFrom<&[u8]> for Png` (`src/png.rs`,
`while starting_cursor < value.len()`).  Each iteration: slice the
4-byte length field at the cursor (out-of-range slicing panics), set
`end_cursor = MIN_CHUNK_LENGTH + chunk_length + starting_cursor`, slice
the whole span (out-of-range slicing panics), decode it as a chunk
(errors propagate), push the chunk, continue from `end_cursor`.  The
loop is driven by structural recursion on `fuel`; every iteration
advances the cursor by at least 12, so `value.length + 1` units of fuel
(what `Png.tryFrom` supplies) are never exhausted. -/
def Png.parseChunks (fuel : Nat) (signature value : List Nat) (startingCursor : Nat)
    (chunks : List Chunk) : PngParse :=
  match fuel with
  | 0 => .panic
  | fuel + 1 =>
    if startingCursor < value.length then
      if value.length < startingCursor + 4 then .panic
      else
        let chunkLength := u32FromBe ((value.drop startingCursor).take 4)
        let endCursor := MIN_CHUNK_LENGTH + chunkLength + startingCursor
        if value.length < endCursor then .panic
        else
          match Chunk.tryFrom ((value.drop startingCursor).take (endCursor - startingCursor)) with
          | .error e => .error e
          | .ok chunk => Png.parseChunks fuel signature value endCursor (chunks ++ [chunk])
    else .ok ⟨signature, chunks⟩

/-- Models `impl TryFrom<&[u8]> for Png`: slice the first eight bytes
(`value[..8]` panics when fewer than eight exist), compare them with
the fixed signature (`InvalidPngSignature` on mismatch), then run the
chunk loop from offset 8 with an empty chunk list. -/
def Png.tryFrom (value : List Nat) : PngParse :=
  if value.length < 8 then .panic
  else
    let signature := value.take 8
    if signature ≠ PNG_FILE_SIGNATURE then .error .invalidPngSignature
    else Png.parseChunks (value.length + 1) signature value 8 []

/-- The scan behind `Png::search_chunk`:
`chunks.iter().enumerate().find(|(_, c)| c.chunk_type().to_string().eq(t))`,
with `index` the position of the head of `chunks` in the full list. -/
def Png.searchChunkFrom (chunks : List Chunk) (chunkType : List Nat) (index : Nat) :
    Option (Nat × Chunk) :=
  match chunks with
  | [] => none
  | chunk :: rest =>
    if chunk.chunkType.toText = chunkType then some (index, chunk)
    else Png.searchChunkFrom rest chunkType (index + 1)

/-- Models `Png::search_chunk`: first (index, chunk) pair, scanning in
order, whose type code's textual form equals the query. -/
def Png.searchChunk (png : Png) (chunkType : List Nat) : Option (Nat × Chunk) :=
  Png.searchChunkFrom png.chunks chunkType 0

/-- Models `Png::append_chunk`. -/
def Png.appendChunk (png : Png) (chunk : Chunk) : Png :=
  ⟨png.signature, png.chunks ++ [chunk]⟩

/-- Models `Png::remove_chunk`: `search_chunk`, then `ChunkNotFound`
when absent, otherwise `Vec::remove(index)` — the chunk at the found
index is returned and the later chunks shift down by one
(`List.eraseIdx`). -/
def Png.removeChunk (png : Png) (chunkType : List Nat) : Except PngError (Chunk × Png) :=
  match png.searchChunk chunkType with
  | none => .error .chunkNotFound
  | some (index, chunk) => .ok (chunk, ⟨png.signature, png.chunks.eraseIdx index⟩)

/-- Modelled from the spec: the repository's sources under `src/`
declare no encoder for `Png` (only `Chunk::as_bytes` exists); the spec
defines Container `encode()` as
`signature ++ concat(chunk.encode() for chunk in chunks, in order)`. -/
def Png.asBytes (png : Png) : List Nat :=
  png.signature ++ (png.chunks.map Chunk.asBytes).flatten

deriving instance DecidableEq for Except

instance (ct : ChunkType) : Decidable ct.WF :=
  inferInstanceAs (Decidable (ct.bytes.length = 4 ∧ ∀ b ∈ ct.bytes, isAsciiAlphabetic b = true))

instance (c : Chunk) : Decidable c.Valid :=
  inferInstanceAs (Decidable (c.length = c.chunkData.length
    ∧ c.crc = crc32 (c.chunkType.bytes ++ c.chunkData)))

instance (c : Chunk) : Decidable c.WF :=
  inferInstanceAs (Decidable (c.chunkType.WF ∧ c.length < 2 ^ 32 ∧ c.crc < 2 ^ 32
    ∧ ∀ b ∈ c.chunkData, b < 256))

/-- The ASCII bytes of the string
"This is where your secret message will be!" (42 bytes). -/
def secretMessageBytes : List Nat :=
  [84, 104, 105, 115, 32, 105, 115, 32, 119, 104, 101, 114, 101, 32, 121, 111,
   117, 114, 32, 115, 101, 99, 114, 101, 116, 32, 109, 101, 115, 115, 97, 103,
   101, 32, 119, 105, 108, 108, 32, 98, 101, 33]

/-! ### Basic facts about the embedded primitives -/

theorem u32ToBe_length (n : Nat) : (u32ToBe n).length = 4 := by
  simp [u32ToBe]

theorem u32ToBe_bytes_lt (n : Nat) : ∀ b ∈ u32ToBe n, b < 256 := by
  simp [u32ToBe]
  omega

theorem u32FromBe_u32ToBe (n : Nat) (h : n < 2 ^ 32) : u32FromBe (u32ToBe n) = n := by
  simp only [u32ToBe, u32FromBe]
  omega

theorem u32FromBe_lt (bs : List Nat) (h4 : bs.length = 4) (hb : ∀ b ∈ bs, b < 256) :
    u32FromBe bs < 2 ^ 32 := by
  rcases bs with _ | ⟨a, _ | ⟨b, _ | ⟨c, _ | ⟨d, _ | ⟨e, tl⟩⟩⟩⟩⟩ <;> simp_all [u32FromBe]
  omega

theorem Chunk.new_length (ct : ChunkType) (data : List Nat) :
    (Chunk.new ct data).length = data.length % 2 ^ 32 := rfl

theorem Chunk.new_crc (ct : ChunkType) (data : List Nat) :
    (Chunk.new ct data).crc = crc32 (ct.bytes ++ data) := rfl

theorem Chunk.new_chunkData (ct : ChunkType) (data : List Nat) :
    (Chunk.new ct data).chunkData = data := rfl

theorem Chunk.new_chunkType (ct : ChunkType) (data : List Nat) :
    (Chunk.new ct data).chunkType = ct := rfl

theorem ChunkType.tryFrom_ok (bs : List Nat) (h : ∀ b ∈ bs, isAsciiAlphabetic b = true) :
    ChunkType.tryFrom bs = .ok ⟨bs⟩ := by
  have hany : bs.any (fun byte => !isAsciiAlphabetic byte) = false := by
    rw [List.any_eq_false]
    intro x hx
    simp [h x hx]
  simp [ChunkType.tryFrom, hany]

theorem ChunkType.tryFrom_ok_inv (bs : List Nat) (ct : ChunkType)
    (h : ChunkType.tryFrom bs = .ok ct) :
    ct = ⟨bs⟩ ∧ ∀ b ∈ bs, isAsciiAlphabetic b = true := by
  unfold ChunkType.tryFrom at h
  split at h
  · simp at h
  · rename_i hany
    refine ⟨(Except.ok.inj h).symm, ?_⟩
    intro b hb
    by_contra hba
    exact hany (List.any_eq_true.mpr ⟨b, hb, by simp [hba]⟩)

/-! ### Characterization of `Chunk.tryFrom` on well-framed input -/

theorem Chunk.tryFrom_framed (value : List Nat)
    (hlen : 12 + u32FromBe (value.take 4) ≤ value.length)
    (halpha : ∀ b ∈ (value.drop 4).take 4, isAsciiAlphabetic b = true) :
    Chunk.tryFrom value =
      if u32FromBe ((value.drop (8 + u32FromBe (value.take 4))).take 4)
          = crc32 ((value.drop 4).take 4 ++ (value.drop 8).take (u32FromBe (value.take 4))) then
        .ok (Chunk.new ⟨(value.drop 4).take 4⟩ ((value.drop 8).take (u32FromBe (value.take 4))))
      else
        .error (.invalidCrc (u32FromBe ((value.drop (8 + u32FromBe (value.take 4))).take 4))
          (crc32 ((value.drop 4).take 4 ++ (value.drop 8).take (u32FromBe (value.take 4))))) := by
  have h1 : ¬ value.length < 4 := by omega
  have h2 : ¬ (value.drop 4).length < 4 := by
    rw [List.length_drop]
    omega
  have h3 : (value.drop 4).drop 4 = value.drop 8 := by
    simp
  have h4 : ¬ (value.drop 8).length < u32FromBe (value.take 4) := by
    rw [List.length_drop]
    omega
  have h5 : (value.drop 8).drop (u32FromBe (value.take 4))
      = value.drop (8 + u32FromBe (value.take 4)) :=
    List.drop_drop _ 8 value
  have h6 : ¬ (value.drop (8 + u32FromBe (value.take 4))).length < 4 := by
    rw [List.length_drop]
    omega
  simp only [Chunk.tryFrom, if_neg h1, if_neg h2, ChunkType.tryFrom_ok _ halpha, h3, if_neg h4,
    h5, if_neg h6]

/-! ### Chunk encode/decode round-trip -/

theorem Chunk.new_eq_self (c : Chunk) (hlen : c.length < 2 ^ 32) (hv : c.Valid) :
    Chunk.new ⟨c.chunkType.bytes⟩ c.chunkData = c := by
  obtain ⟨hvl, hvc⟩ := hv
  rcases c with ⟨len, ⟨tb⟩, data, crcv⟩
  dsimp only at hvl hvc hlen ⊢
  simp only [Chunk.new, Chunk.mk.injEq]
  exact ⟨by omega, trivial, trivial, hvc.symm⟩

theorem Chunk.tryFrom_asBytes (c : Chunk) (hwf : c.WF) (hv : c.Valid) :
    Chunk.tryFrom c.asBytes = .ok c := by
  obtain ⟨⟨htl, hta⟩, hlen, hcrc, -⟩ := hwf
  obtain ⟨hvl, hvc⟩ := hv
  have hform : c.asBytes
      = u32ToBe c.length ++ (c.chunkType.bytes ++ (c.chunkData ++ u32ToBe c.crc)) := by
    simp [Chunk.asBytes]
  have e1 : c.asBytes.take 4 = u32ToBe c.length := by
    rw [hform]
    exact List.take_left' (u32ToBe_length _)
  have eN : u32FromBe (c.asBytes.take 4) = c.length := by
    rw [e1, u32FromBe_u32ToBe _ hlen]
  have e2 : c.asBytes.drop 4 = c.chunkType.bytes ++ (c.chunkData ++ u32ToBe c.crc) := by
    rw [hform]
    exact List.drop_left' (u32ToBe_length _)
  have e3 : (c.asBytes.drop 4).take 4 = c.chunkType.bytes := by
    rw [e2]
    exact List.take_left' htl
  have e4 : c.asBytes.drop 8 = c.chunkData ++ u32ToBe c.crc := by
    have h8 : (c.asBytes.drop 4).drop 4 = c.asBytes.drop 8 := by simp
    rw [← h8, e2]
    exact List.drop_left' htl
  have e5 : (c.asBytes.drop 8).take (u32FromBe (c.asBytes.take 4)) = c.chunkData := by
    rw [eN, e4]
    exact List.take_left' hvl.symm
  have e6 : c.asBytes.drop (8 + u32FromBe (c.asBytes.take 4)) = u32ToBe c.crc := by
    rw [eN, ← List.drop_drop c.length 8 c.asBytes, e4]
    exact List.drop_left' hvl.symm
  have e7 : (c.asBytes.drop (8 + u32FromBe (c.asBytes.take 4))).take 4 = u32ToBe c.crc := by
    rw [e6, ← u32ToBe_length c.crc]
    exact List.take_length _
  have hlen12 : 12 + u32FromBe (c.asBytes.take 4) ≤ c.asBytes.length := by
    rw [eN, hform]
    simp only [List.length_append, u32ToBe_length, htl]
    omega
  have halpha : ∀ b ∈ (c.asBytes.drop 4).take 4, isAsciiAlphabetic b = true := by
    rw [e3]
    exact hta
  rw [Chunk.tryFrom_framed c.asBytes hlen12 halpha, e3, e5, e7, u32FromBe_u32ToBe _ hcrc,
    if_pos hvc]
  rw [Chunk.new_eq_self c hlen ⟨hvl, hvc⟩]

theorem Chunk.tryFrom_ok_decomp (value : List Nat) (c : Chunk)
    (h : Chunk.tryFrom value = .ok c) :
    c = Chunk.new ⟨(value.drop 4).take 4⟩ ((value.drop 8).take (u32FromBe (value.take 4))) ∧
    12 + u32FromBe (value.take 4) ≤ value.length := by
  simp only [Chunk.tryFrom] at h
  split at h
  · simp at h
  rename_i hl1
  split at h
  · simp at h
  rename_i hl2
  split at h
  · simp at h
  rename_i chunkType heq
  split at h
  · simp at h
  rename_i hl3
  split at h
  · simp at h
  rename_i hl4
  split at h
  · rename_i hcrcEq
    obtain ⟨hct, -⟩ := ChunkType.tryFrom_ok_inv _ _ heq
    have hc := Except.ok.inj h
    subst hct
    constructor
    · rw [← hc]
      simp
    · simp only [List.length_drop] at hl1 hl2 hl3 hl4
      simp at hl3 hl4
      omega
  · simp at h

/-! ### The container chunk loop on encoded input -/

theorem Chunk.asBytes_assoc (c : Chunk) :
    c.asBytes = u32ToBe c.length ++ (c.chunkType.bytes ++ (c.chunkData ++ u32ToBe c.crc)) := by
  simp [Chunk.asBytes]

theorem Chunk.asBytes_length (c : Chunk) (htl : c.chunkType.bytes.length = 4)
    (hvl : c.length = c.chunkData.length) : c.asBytes.length = 12 + c.length := by
  rw [Chunk.asBytes_assoc]
  simp only [List.length_append, u32ToBe_length, htl]
  omega

theorem Chunk.length_le_asBytes_flatten (cs : List Chunk) :
    cs.length ≤ ((cs.map Chunk.asBytes).flatten).length := by
  induction cs with
  | nil => simp
  | cons c rest ih =>
    simp only [List.map_cons, List.flatten_cons, List.length_cons, List.length_append]
    have : 1 ≤ (Chunk.asBytes c).length := by
      rw [Chunk.asBytes_assoc]
      simp only [List.length_append, u32ToBe_length]
      omega
    omega

theorem Png.parseChunks_encode (cs : List Chunk) :
    ∀ fuel pre acc sig, (∀ c ∈ cs, c.WF ∧ c.Valid) → cs.length < fuel →
    Png.parseChunks fuel sig (pre ++ (cs.map Chunk.asBytes).flatten) pre.length acc
      = .ok ⟨sig, acc ++ cs⟩ := by
  induction cs with
  | nil =>
    intro fuel pre acc sig h hfuel
    cases fuel with
    | zero => omega
    | succ f => simp [Png.parseChunks]
  | cons c rest ih =>
    intro fuel pre acc sig h hfuel
    cases fuel with
    | zero => omega
    | succ f =>
    obtain ⟨hwf, hv⟩ := h c (List.mem_cons_self c rest)
    obtain ⟨⟨htl, hta⟩, hlen, hcrc, hdb⟩ := hwf
    obtain ⟨hvl, hvc⟩ := hv
    have hablen : (Chunk.asBytes c).length = 12 + c.length := Chunk.asBytes_length c htl hvl
    have hmapcons : ((c :: rest).map Chunk.asBytes).flatten
        = Chunk.asBytes c ++ (rest.map Chunk.asBytes).flatten := by
      simp
    rw [hmapcons]
    have hdropn : (pre ++ (Chunk.asBytes c ++ (rest.map Chunk.asBytes).flatten)).drop pre.length
        = Chunk.asBytes c ++ (rest.map Chunk.asBytes).flatten :=
      List.drop_left _ _
    have htake4 : (Chunk.asBytes c ++ (rest.map Chunk.asBytes).flatten).take 4
        = u32ToBe c.length := by
      rw [List.take_append_of_le_length (by omega), Chunk.asBytes_assoc,
        List.take_append_of_le_length (by simp [u32ToBe_length]), ← u32ToBe_length c.length,
        List.take_length]
    have hVlen : (pre ++ (Chunk.asBytes c ++ (rest.map Chunk.asBytes).flatten)).length
        = pre.length + ((12 + c.length) + ((rest.map Chunk.asBytes).flatten).length) := by
      simp [List.length_append, hablen]
    have htakespan : (Chunk.asBytes c ++ (rest.map Chunk.asBytes).flatten).take (12 + c.length)
        = Chunk.asBytes c :=
      List.take_left' hablen
    simp only [Png.parseChunks, MIN_CHUNK_LENGTH, hdropn, htake4,
      u32FromBe_u32ToBe c.length hlen]
    rw [if_pos (by omega), if_neg (by omega), if_neg (by omega)]
    have hspan : 12 + c.length + pre.length - pre.length = 12 + c.length := by omega
    rw [hspan, htakespan]
    simp only [Chunk.tryFrom_asBytes c ⟨⟨htl, hta⟩, hlen, hcrc, hdb⟩ ⟨hvl, hvc⟩]
    have hend : 12 + c.length + pre.length = (pre ++ Chunk.asBytes c).length := by
      simp only [List.length_append, hablen]
      omega
    have hV : pre ++ (Chunk.asBytes c ++ (rest.map Chunk.asBytes).flatten)
        = (pre ++ Chunk.asBytes c) ++ (rest.map Chunk.asBytes).flatten := by
      simp [List.append_assoc]
    rw [hend, hV, ih f (pre ++ Chunk.asBytes c) (acc ++ [c]) sig
      (fun d hd => h d (List.mem_cons_of_mem c hd)) (by simpa using Nat.lt_of_succ_lt_succ hfuel)]
    simp

/-! ### The chunk search scan -/

theorem Png.searchChunkFrom_none (cs : List Chunk) (q : List Nat) (n : Nat) :
    Png.searchChunkFrom cs q n = none ↔ ∀ c ∈ cs, c.chunkType.toText ≠ q := by
  induction cs generalizing n with
  | nil => simp [Png.searchChunkFrom]
  | cons c rest ih =>
    simp only [Png.searchChunkFrom]
    split
    · rename_i hq
      simp [List.forall_mem_cons, hq]
    · rename_i hq
      rw [ih (n + 1)]
      simp [List.forall_mem_cons, hq]

theorem Png.searchChunkFrom_some (cs : List Chunk) (q : List Nat) (n i : Nat) (c : Chunk)
    (h : Png.searchChunkFrom cs q n = some (i, c)) :
    ∃ k, i = n + k ∧ cs[k]? = some c ∧ c.chunkType.toText = q ∧
      ∀ j < k, ∀ c2, cs[j]? = some c2 → c2.chunkType.toText ≠ q := by
  induction cs generalizing n i with
  | nil => simp [Png.searchChunkFrom] at h
  | cons d rest ih =>
    simp only [Png.searchChunkFrom] at h
    split at h
    · rename_i hq
      obtain ⟨hn, hd⟩ := Prod.mk.inj (Option.some.inj h)
      refine ⟨0, by omega, ?_, ?_, ?_⟩
      · simp [hd]
      · rw [← hd]
        exact hq
      · intro j hj
        omega
    · rename_i hq
      obtain ⟨k, hk, hget, hmatch, hmin⟩ := ih (n + 1) i h
      refine ⟨k + 1, by omega, by simpa using hget, hmatch, ?_⟩
      intro j hj c2 hc2
      cases j with
      | zero =>
        simp only [List.getElem?_cons_zero, Option.some.injEq] at hc2
        rw [← hc2]
        exact hq
      | succ j =>
        exact hmin j (by omega) c2 (by simpa using hc2)

/-! ### Claim theorems -/

/-- C1: For every valid `Chunk` `c` (checksum = CRC-32 of type-code
bytes followed by data, length = byte count of data; `WF` supplies the
representation invariants a Rust `Chunk` value carries by type —
4 alphabetic type-code bytes, `u32` fields, `u8` data), decoding the
bytes produced by `c`'s encoder yields a `Chunk` equal to `c` in every
field. -/
theorem chunk_encode_decode_roundtrip (c : Chunk) (hwf : c.WF) (hv : c.Valid) :
    Chunk.tryFrom c.asBytes = .ok c :=
  Chunk.tryFrom_asBytes c hwf hv

theorem chunk_encode_decode_roundtrip_witness :
    (Chunk.new ⟨[82, 117, 83, 116]⟩ [1, 2, 3]).WF ∧
    (Chunk.new ⟨[82, 117, 83, 116]⟩ [1, 2, 3]).Valid ∧
    Chunk.tryFrom (Chunk.new ⟨[82, 117, 83, 116]⟩ [1, 2, 3]).asBytes
      = .ok (Chunk.new ⟨[82, 117, 83, 116]⟩ [1, 2, 3]) :=
  ⟨by decide, by decide, chunk_encode_decode_roundtrip _ (by decide) (by decide)⟩

/-- C2: the container decoder is *not* truncation-safe as claimed: on a
buffer that declares a chunk length of 100 but supplies only 50 data
bytes, the slice `value[starting_cursor..end_cursor]` in `Png::try_from`
is out of range and the code panics instead of returning
`TruncatedInput`. -/
theorem png_decode_truncated_chunk_panics :
    Png.tryFrom (PNG_FILE_SIGNATURE
      ++ ([0, 0, 0, 100] ++ ([82, 117, 83, 116] ++ List.replicate 50 0))) = .panic := by
  decide

/-- C3: the signature gate is *not* panic-free on short input: on a
buffer of fewer than 8 bytes the slice `value[..8]` in `Png::try_from`
is out of range and the code panics before the `TryFromSliceError`
conversion (the error path the `?` operator was meant to take) can
run. -/
theorem png_decode_short_input_panics :
    Png.tryFrom [137, 80, 78, 71, 13, 10, 26] = .panic := by
  decide

/-- C4: on input that frames correctly (the declared span of
`12 + length` bytes fits and the type code is alphabetic), the chunk
decoder succeeds if and only if the CRC-32 recomputed over type-code
bytes ++ data equals the embedded checksum field, and on mismatch it
fails with `InvalidCrc { got := embedded, expected := recomputed }`;
no chunk value is produced in that case. -/
theorem chunk_decode_checksum_gate (value : List Nat)
    (hlen : 12 + u32FromBe (value.take 4) ≤ value.length)
    (halpha : ∀ b ∈ (value.drop 4).take 4, isAsciiAlphabetic b = true) :
    Chunk.tryFrom value =
      if u32FromBe ((value.drop (8 + u32FromBe (value.take 4))).take 4)
          = crc32 ((value.drop 4).take 4 ++ (value.drop 8).take (u32FromBe (value.take 4))) then
        .ok (Chunk.new ⟨(value.drop 4).take 4⟩ ((value.drop 8).take (u32FromBe (value.take 4))))
      else
        .error (.invalidCrc (u32FromBe ((value.drop (8 + u32FromBe (value.take 4))).take 4))
          (crc32 ((value.drop 4).take 4 ++ (value.drop 8).take (u32FromBe (value.take 4))))) :=
  Chunk.tryFrom_framed value hlen halpha

theorem chunk_decode_checksum_gate_witness :
    Chunk.tryFrom [0, 0, 0, 1, 82, 117, 83, 116, 7, 0, 0, 0, 0]
      = .error (.invalidCrc 0 (crc32 [82, 117, 83, 116, 7])) :=
  (chunk_decode_checksum_gate [0, 0, 0, 1, 82, 117, 83, 116, 7, 0, 0, 0, 0]
    (by decide) (by decide)).trans (by decide)

/-- C5 counterexample: `Chunk::new` computes the length field as
`data.len() as u32`, which truncates; on data of `2 ^ 32` bytes the
stored length is `0`, not the byte count of the data, so the claimed
invariant `length = byte count of data` fails for a chunk built by
`new`. -/
theorem chunk_new_length_truncates :
    (Chunk.new ⟨[82, 117, 83, 116]⟩ (List.replicate (2 ^ 32) 0)).length
      ≠ (List.replicate (2 ^ 32) 0).length := by
  rw [Chunk.new_length, List.length_replicate, Nat.mod_self]
  decide

/-- C5 (amended): every chunk built by `Chunk.new` from data of fewer
than `2 ^ 32` bytes, and every chunk produced by a successful decode of
a byte buffer, satisfies `checksum = CRC-32(type-code bytes ++ data)`
and `length = byte count of data`; `new` computes both fields itself
from its arguments (in general storing the data count mod `2 ^ 32`) and
never trusts caller-supplied values. -/
theorem chunk_consistency_invariant (c : Chunk)
    (h : (∃ ct data, data.length < 2 ^ 32 ∧ c = Chunk.new ct data)
        ∨ (∃ value, (∀ b ∈ value, b < 256) ∧ Chunk.tryFrom value = .ok c)) :
    c.Valid := by
  rcases h with ⟨ct, data, hlt, rfl⟩ | ⟨value, hb, hok⟩
  · refine ⟨?_, by rw [Chunk.new_crc, Chunk.new_chunkType, Chunk.new_chunkData]⟩
    rw [Chunk.new_length, Chunk.new_chunkData]
    exact Nat.mod_eq_of_lt hlt
  · obtain ⟨hc, hfits⟩ := Chunk.tryFrom_ok_decomp value c hok
    subst hc
    have h4 : (value.take 4).length = 4 := by
      rw [List.length_take]
      omega
    have hN : u32FromBe (value.take 4) < 2 ^ 32 :=
      u32FromBe_lt _ h4 (fun b hb2 => hb b (List.mem_of_mem_take hb2))
    have hdata : ((value.drop 8).take (u32FromBe (value.take 4))).length
        = u32FromBe (value.take 4) := by
      rw [List.length_take, List.length_drop]
      omega
    refine ⟨?_, by rw [Chunk.new_crc, Chunk.new_chunkType, Chunk.new_chunkData]⟩
    rw [Chunk.new_length, Chunk.new_chunkData, hdata]
    exact Nat.mod_eq_of_lt hN

theorem chunk_consistency_invariant_witness :
    (Chunk.new ⟨[82, 117, 83, 116]⟩ [5, 6]).Valid :=
  chunk_consistency_invariant _ (Or.inl ⟨⟨[82, 117, 83, 116]⟩, [5, 6], by decide, rfl⟩)

/-- C6: for a 4-byte input, `ChunkType` construction succeeds exactly
when every byte is an ASCII letter, and a constructed `ChunkType`
reports `is_valid()` exactly when its third byte (index 2) is
uppercase — in particular an all-alphabetic code with a lowercase third
byte is constructible yet invalid. -/
theorem chunkType_construction_and_validity (bs : List Nat) (_h4 : bs.length = 4) :
    ((∃ ct, ChunkType.tryFrom bs = .ok ct) ↔ ∀ b ∈ bs, isAsciiAlphabetic b = true) ∧
    ∀ ct, ChunkType.tryFrom bs = .ok ct →
      (ct.isValid = true ↔ isAsciiUppercase (bs.getD 2 0) = true) := by
  constructor
  · constructor
    · rintro ⟨ct, hct⟩
      exact (ChunkType.tryFrom_ok_inv bs ct hct).2
    · intro h
      exact ⟨⟨bs⟩, ChunkType.tryFrom_ok bs h⟩
  · intro ct hct
    obtain ⟨rfl, halpha⟩ := ChunkType.tryFrom_ok_inv bs ct hct
    have hany : bs.any (fun byte => !isAsciiAlphabetic byte) = false := by
      rw [List.any_eq_false]
      intro x hx
      simp [halpha x hx]
    show (if !(isAsciiUppercase (bs.getD 2 0)) then false
        else !(bs.any fun byte => !isAsciiAlphabetic byte)) = true ↔ _
    rw [hany]
    cases hup : isAsciiUppercase (bs.getD 2 0) <;> simp

theorem chunkType_construction_and_validity_witness :
    ChunkType.tryFrom [82, 117, 115, 116] = .ok ⟨[82, 117, 115, 116]⟩ ∧
    ChunkType.isValid ⟨[82, 117, 115, 116]⟩ = false := by
  have h := (chunkType_construction_and_validity [82, 117, 115, 116] (by decide)).2
    ⟨[82, 117, 115, 116]⟩ (by decide)
  refine ⟨by decide, ?_⟩
  cases hb : ChunkType.isValid ⟨[82, 117, 115, 116]⟩ with
  | false => rfl
  | true => exact absurd (h.mp hb) (by decide)

/-- C7: for every container `p` whose signature is the fixed constant
and whose chunks are valid well-formed chunks, decoding the bytes
produced by the (spec-modelled) container encoder yields a container
equal to `p`: same signature, same chunks in the same order.  The
empty-chunk case — an input of exactly the 8 signature bytes decoding
to a container with zero chunks — is the instance `p = ⟨signature, []⟩`
(exercised by the witness below alongside a non-empty instance). -/
theorem png_encode_decode_roundtrip (p : Png) (hsig : p.signature = PNG_FILE_SIGNATURE)
    (hc : ∀ c ∈ p.chunks, c.WF ∧ c.Valid) :
    Png.tryFrom p.asBytes = .ok p := by
  have h8 : PNG_FILE_SIGNATURE.length = 8 := rfl
  have hform : p.asBytes = PNG_FILE_SIGNATURE ++ (p.chunks.map Chunk.asBytes).flatten := by
    rw [Png.asBytes, hsig]
  have hflt := Chunk.length_le_asBytes_flatten p.chunks
  have hlen : ¬ p.asBytes.length < 8 := by
    rw [hform, List.length_append, h8]
    omega
  have htake : p.asBytes.take 8 = PNG_FILE_SIGNATURE := by
    rw [hform]
    exact List.take_left' h8
  have hcnt : p.chunks.length < p.asBytes.length + 1 := by
    rw [hform, List.length_append]
    omega
  have hres := Png.parseChunks_encode p.chunks (p.asBytes.length + 1) PNG_FILE_SIGNATURE []
    PNG_FILE_SIGNATURE hc hcnt
  rw [h8, ← hform] at hres
  simp only [List.nil_append] at hres
  simp only [Png.tryFrom, htake]
  rw [if_neg hlen, if_neg (by simp)]
  exact hres.trans (by rw [← hsig])

theorem png_encode_decode_roundtrip_witness :
    Png.tryFrom (Png.fromChunks []).asBytes = .ok (Png.fromChunks [])
      ∧ Png.tryFrom (Png.fromChunks [Chunk.new ⟨[82, 117, 83, 116]⟩ [1, 2]]).asBytes
        = .ok (Png.fromChunks [Chunk.new ⟨[82, 117, 83, 116]⟩ [1, 2]]) :=
  ⟨png_encode_decode_roundtrip _ rfl (by decide),
    png_encode_decode_roundtrip _ rfl (by decide)⟩

/-- C8: `remove_chunk` removes exactly the first (lowest-index) chunk
whose type code's textual form equals the query and returns it, the
remaining chunks keeping their content and relative order
(`take i ++ drop (i+1)`); when no chunk matches it fails with
`ChunkNotFound` and produces no modified container. -/
theorem png_remove_first_match (p : Png) (q : List Nat) :
    (Png.removeChunk p q = .error .chunkNotFound ↔ ∀ c ∈ p.chunks, c.chunkType.toText ≠ q) ∧
    (∀ i c, Png.searchChunk p q = some (i, c) →
      p.chunks[i]? = some c ∧ c.chunkType.toText = q ∧
      (∀ j < i, ∀ c2, p.chunks[j]? = some c2 → c2.chunkType.toText ≠ q) ∧
      Png.removeChunk p q = .ok (c, ⟨p.signature, p.chunks.take i ++ p.chunks.drop (i + 1)⟩)) := by
  constructor
  · constructor
    · intro h
      cases hs : Png.searchChunk p q with
      | none => exact (Png.searchChunkFrom_none p.chunks q 0).mp hs
      | some pair =>
        exfalso
        rcases pair with ⟨i, c⟩
        rw [Png.removeChunk] at h
        rw [hs] at h
        simp at h
    · intro hall
      have hs : Png.searchChunk p q = none := (Png.searchChunkFrom_none p.chunks q 0).mpr hall
      rw [Png.removeChunk, hs]
  · intro i c hs
    obtain ⟨k, hk, hget, hmatch, hmin⟩ := Png.searchChunkFrom_some p.chunks q 0 i c hs
    have hki : k = i := by omega
    subst hki
    refine ⟨hget, hmatch, hmin, ?_⟩
    simp only [Png.removeChunk, hs, List.eraseIdx_eq_take_drop_succ]

theorem png_remove_first_match_witness :
    Png.removeChunk
      (Png.fromChunks [Chunk.new ⟨[82, 117, 83, 116]⟩ [10],
        Chunk.new ⟨[84, 101, 65, 114]⟩ [11], Chunk.new ⟨[82, 117, 83, 116]⟩ [12]])
      [84, 101, 65, 114]
      = .ok (Chunk.new ⟨[84, 101, 65, 114]⟩ [11],
        Png.fromChunks [Chunk.new ⟨[82, 117, 83, 116]⟩ [10],
          Chunk.new ⟨[82, 117, 83, 116]⟩ [12]]) := by
  have h := (png_remove_first_match
    (Png.fromChunks [Chunk.new ⟨[82, 117, 83, 116]⟩ [10],
      Chunk.new ⟨[84, 101, 65, 114]⟩ [11], Chunk.new ⟨[82, 117, 83, 116]⟩ [12]])
    [84, 101, 65, 114]).2 1 (Chunk.new ⟨[84, 101, 65, 114]⟩ [11]) (by decide)
  exact h.2.2.2.trans (by decide)

/-- C9 counterexample: the data bytes of the string
"This is where your secret message will be!" number 42, not 44, so the
chunk built from type code `[82, 117, 83, 116]` ("RuSt") on that data
has length 42 and the claimed `length = 44` is false at this exact
input. -/
theorem chunk_scenario_length_ne_44 :
    (Chunk.new ⟨[82, 117, 83, 116]⟩ secretMessageBytes).length ≠ 44 := by
  decide

/-- C9 (amended): constructing a chunk with type-code bytes
`[82, 117, 83, 116]` ("RuSt") and the data bytes of
"This is where your secret message will be!" yields `length = 42`, and
encoding that chunk produces a record of exactly 54 bytes which decodes
back to an identical chunk. -/
theorem chunk_scenario_rust_secret :
    (Chunk.new ⟨[82, 117, 83, 116]⟩ secretMessageBytes).length = 42 ∧
    (Chunk.new ⟨[82, 117, 83, 116]⟩ secretMessageBytes).asBytes.length = 54 ∧
    Chunk.tryFrom (Chunk.new ⟨[82, 117, 83, 116]⟩ secretMessageBytes).asBytes
      = .ok (Chunk.new ⟨[82, 117, 83, 116]⟩ secretMessageBytes) := by
  decide

/-- C10 (implicit): the chunk decoder ignores trailing bytes.  For
every input whose first four bytes declare length `N`, which contains
at least `N + 12` bytes, whose type-code field is alphabetic and whose
embedded checksum matches the recomputed one, decoding succeeds — also
when the input is strictly longer than `N + 12` bytes — and returns
exactly what decoding the first `N + 12` bytes returns, so the bytes
past position `N + 12` have no effect. -/
theorem chunk_decode_ignores_trailing (value : List Nat)
    (hlen : 12 + u32FromBe (value.take 4) ≤ value.length)
    (halpha : ∀ b ∈ (value.drop 4).take 4, isAsciiAlphabetic b = true)
    (hcrc : u32FromBe ((value.drop (8 + u32FromBe (value.take 4))).take 4)
      = crc32 ((value.drop 4).take 4 ++ (value.drop 8).take (u32FromBe (value.take 4)))) :
    Chunk.tryFrom value
      = .ok (Chunk.new ⟨(value.drop 4).take 4⟩
          ((value.drop 8).take (u32FromBe (value.take 4)))) ∧
    Chunk.tryFrom value = Chunk.tryFrom (value.take (12 + u32FromBe (value.take 4))) := by
  have hmain : Chunk.tryFrom value
      = .ok (Chunk.new ⟨(value.drop 4).take 4⟩
          ((value.drop 8).take (u32FromBe (value.take 4)))) := by
    rw [Chunk.tryFrom_framed value hlen halpha, if_pos hcrc]
  refine ⟨hmain, ?_⟩
  have e0 : (value.take (12 + u32FromBe (value.take 4))).take 4 = value.take 4 := by
    rw [List.take_take]
    congr 1
    omega
  have ew : (value.take (12 + u32FromBe (value.take 4))).length
      = 12 + u32FromBe (value.take 4) := by
    rw [List.length_take]
    omega
  have hlen' : 12 + u32FromBe ((value.take (12 + u32FromBe (value.take 4))).take 4)
      ≤ (value.take (12 + u32FromBe (value.take 4))).length := by
    rw [e0, ew]
  have ed4t : ((value.take (12 + u32FromBe (value.take 4))).drop 4).take 4
      = (value.drop 4).take 4 := by
    rw [List.drop_take, List.take_take]
    congr 1
    omega
  have halpha' : ∀ b ∈ ((value.take (12 + u32FromBe (value.take 4))).drop 4).take 4,
      isAsciiAlphabetic b = true := by
    rw [ed4t]
    exact halpha
  have edata : ((value.take (12 + u32FromBe (value.take 4))).drop 8).take
        (u32FromBe (value.take 4))
      = (value.drop 8).take (u32FromBe (value.take 4)) := by
    rw [List.drop_take, List.take_take]
    congr 1
    omega
  have ecrcb : ((value.take (12 + u32FromBe (value.take 4))).drop
        (8 + u32FromBe (value.take 4))).take 4
      = (value.drop (8 + u32FromBe (value.take 4))).take 4 := by
    rw [List.drop_take, List.take_take]
    congr 1
    omega
  rw [hmain, Chunk.tryFrom_framed _ hlen' halpha', e0, ed4t, edata, ecrcb, if_pos hcrc]

theorem chunk_decode_ignores_trailing_witness :
    Chunk.tryFrom ((Chunk.new ⟨[82, 117, 83, 116]⟩ [9]).asBytes ++ [99, 100])
      = .ok (Chunk.new ⟨[82, 117, 83, 116]⟩ [9])
      ∧ Chunk.tryFrom ((Chunk.new ⟨[82, 117, 83, 116]⟩ [9]).asBytes ++ [99, 100])
        = Chunk.tryFrom (((Chunk.new ⟨[82, 117, 83, 116]⟩ [9]).asBytes ++ [99, 100]).take
            (12 + u32FromBe (((Chunk.new ⟨[82, 117, 83, 116]⟩ [9]).asBytes ++ [99, 100]).take 4))) := by
  have h := chunk_decode_ignores_trailing
    ((Chunk.new ⟨[82, 117, 83, 116]⟩ [9]).asBytes ++ [99, 100])
    (by decide) (by decide) (by decide)
  exact ⟨h.1.trans (by decide), h.2⟩
